import Mathlib

set_option maxRecDepth 8000

/-!
Verification development for the A40 device register simulator
(`device_simulator/a40.py`).

The Python source is shallowly embedded below: pure helpers become Lean
functions, the mutable datastore becomes explicit state passing on a
`SimState` record, and the pseudo-random draws of `random.randint` become an
explicit draw oracle passed to each tick.  Machine integers are modelled as
`Nat`/`Int` with explicit `% 2^w` where the `struct` codec truncates.
-/

/-! ## Value codec (`_REGISTER_TYPES`, `_pack_value`, lines 212-224)

`_pack_value(value, width)` packs a signed integer as `width` big-endian
16-bit unsigned words via `struct.pack('>h'|'>i'|'>q', value)`.  The struct
serialization of a signed integer of `width*16` bits is its two's-complement
residue `value mod 2^(16*width)` written big-endian; word `i` (most
significant first) is therefore digit `width-1-i` in base `2^16`.
A width outside `_REGISTER_TYPES` raises `KeyError` in the source; every
width used by the register catalog is 1 or 2.
-/

def _REGISTER_TYPES (width : ℕ) : Option Char :=
  match width with
  | 1 => some 'h'
  | 2 => some 'i'
  | 4 => some 'q'
  | _ => none

def _pack_value (value : ℤ) (width : ℕ) : List ℕ :=
  (List.range width).map (fun i =>
    (value % (2 : ℤ) ^ (16 * width)).toNat / 2 ^ (16 * (width - 1 - i)) % 2 ^ 16)

/-- Modelled from the spec: the source has no inverse of `_pack_value`; the
spec's ValueCodec contract (section 4.2) demands
`unpack(words) -> int64` interpreting the words as one big-endian
two's-complement integer of `16 * length` bits. -/
def unpack (words : List ℕ) : ℤ :=
  let u : ℕ := words.foldl (fun acc x => acc * 65536 + x) 0
  if u < 2 ^ (16 * words.length - 1) then (u : ℤ) else (u : ℤ) - 2 ^ (16 * words.length)

/-! ## Register catalog (`TABLE_1` .. `TABLE_6`, `ALL`, lines 20-30, 65-67)

The six tables map addresses to word widths.  `ALL` is their union; the six
key ranges are pairwise disjoint, so the union order is immaterial.  A
Python `range(start, stop, step)` contains `a` iff
`start <= a < stop` and `(a - start) % step = 0`; each guard below encodes
one table's range that way (with `stop - 1` as an inclusive bound). -/
def _ALL_REGISTERS (addr : ℕ) : Option ℕ :=
  if 0xC550 ≤ addr ∧ addr ≤ 0xC58C ∧ (addr - 0xC550) % 2 = 0 then some 2
  else if 0xC650 ≤ addr ∧ addr ≤ 0xC681 ∧ (addr - 0xC650) % 2 = 0 then some 2
  else if 0xC750 ≤ addr ∧ addr ≤ 0xC78E ∧ (addr - 0xC750) % 2 = 0 then some 2
  else if 0xC790 ≤ addr ∧ addr ≤ 0xC795 then some 1
  else if 0xC850 ≤ addr ∧ addr ≤ 0xC871 then some 1
  else if 0xC900 ≤ addr ∧ addr ≤ 0xC907 then some 1
  else if 0xC950 ≤ addr ∧ addr ≤ 0xCA92 then some 1
  else none

/-- The key list of `ALL` (equivalently of `_INITIAL_REGISTER_VALUES`), one
contiguous `range` per table.  A Python dict iterates its keys in some
arbitrary but fixed order; all facts proved below about folds over this list
depend only on its membership and on its freedom from duplicates, never on
the order, so any permutation models the dict equally well. -/
def catalogKeys : List ℕ :=
  List.range' 0xC550 31 2 ++ List.range' 0xC650 25 2 ++ List.range' 0xC750 32 2 ++
  List.range' 0xC790 6 1 ++ List.range' 0xC850 34 1 ++ List.range' 0xC900 8 1 ++
  List.range' 0xC950 323 1

/-- Fixed register addresses, lines 11-14. -/
def _HOUR_METER : ℕ := 0xC550
def _FREQUENCY : ℕ := 0xC55E
def _PHASE_CURRENT_1 : ℕ := 0xC560
def _NEUTRAL_CURRENT : ℕ := 0xC566

/-- Legal value ranges, the `REGISTER_LIMITS` dict literal of lines 32-63. -/
def REGISTER_LIMITS (addr : ℕ) : Option (ℤ × ℤ) :=
  match addr with
  | 50520 => some (0, 50000)
  | 50514 => some (0, 50000)
  | 50528 => some (0, 20000)
  | 50544 => some (0, 1000)
  | 50556 => some (0, 1000)
  | 50550 => some (0, 1000)
  | 50562 => some (-1000, 1000)
  | 50522 => some (0, 50000)
  | 50516 => some (0, 50000)
  | 50530 => some (0, 20000)
  | 50546 => some (0, 1000)
  | 50558 => some (0, 1000)
  | 50552 => some (0, 1000)
  | 50564 => some (-1000, 1000)
  | 50524 => some (0, 50000)
  | 50518 => some (0, 50000)
  | 50532 => some (0, 20000)
  | 50548 => some (0, 1000)
  | 50560 => some (0, 1000)
  | 50554 => some (0, 1000)
  | 50566 => some (-1000, 1000)
  | 50526 => some (3000, 7000)
  | 50534 => some (0, 20000)
  | 50536 => some (0, 1000)
  | 50540 => some (0, 1000)
  | 50538 => some (0, 1000)
  | 50542 => some (-1000, 1000)
  | _ => none

/-- The 27 keys of `REGISTER_LIMITS`, in source order. -/
def boundedKeys : List ℕ :=
  [50520, 50514, 50528, 50544, 50556, 50550, 50562,
   50522, 50516, 50530, 50546, 50558, 50552, 50564,
   50524, 50518, 50532, 50548, 50560, 50554, 50566,
   50526, 50534, 50536, 50540, 50538, 50542]

/-- Initial logical values, lines 69-71: `0` for every catalog address, the
bounds midpoint for the 27 bounded addresses.  `int(sum(limits)/2)` under
Python 2 is floor division of the (integer) sum by 2, which for the positive
divisor 2 coincides with Lean's euclidean `/` on `ℤ`. -/
def _INITIAL_REGISTER_VALUES (addr : ℕ) : ℤ :=
  match REGISTER_LIMITS addr with
  | some (lo, hi) => (lo + hi) / 2
  | none => 0

/-! ## Sparse word store

The holding-register block subclasses `pymodbus.datastore.ModbusSparseDataBlock`,
whose state is a dict of word address to 16-bit word.  Modelled from the
spec (section 4.3), this external class behaves as follows: `validate` is
true iff every word in the requested range is backed; `getValues` returns
the backed words (a miss is a `KeyError`, modelled as `none`); `setValues`
overwrites unconditionally, creating word slots as needed, taking either a
dict (used by the simulator) or a list laid out from the start address. -/

def Store : Type := ℕ → Option ℕ

def storeSet (st : Store) (k v : ℕ) : Store :=
  fun b => if b = k then some v else st b

/-- Apply a dict-valued `setValues`: each (address, word) pair is written. -/
def setValuesDict (st : Store) (ps : List (ℕ × ℕ)) : Store :=
  ps.foldl (fun s p => storeSet s p.1 p.2) st

/-- Apply a list-valued `setValues`: word `i` of `vs` goes to `addr + i`. -/
def setValuesList (st : Store) (addr : ℕ) (vs : List ℕ) : Store :=
  setValuesDict st (vs.enum.map (fun p => (addr + p.1, p.2)))

/-- Modelled from the spec: `read(address, count)` of section 4.3 returns the
word slots `[address, address+count)`, failing (KeyError) on any unbacked
slot. -/
def readWords (st : Store) (addr : ℕ) : ℕ → Option (List ℕ)
  | 0 => some []
  | n + 1 =>
    match st addr, readWords st (addr + 1) n with
    | some v, some rest => some (v :: rest)
    | _, _ => none

/-- Modelled from the spec: `validate(address, count)` of section 4.3 is true
iff every word address in `[address, address+count)` is backed by some
occupied slot. -/
def storeValidate (st : Store) (addr count : ℕ) : Bool :=
  (List.range count).all (fun i => (st (addr + i)).isSome)

/-! ## The A40 holding-register block and simulation engine (lines 132-210)

Mutable state is threaded explicitly: `SimState` carries the word store
(`self.values` of the sparse block) and the `self._last_values` dict of the
random walk.  Wall-clock time and the PRNG are oracles: each tick receives
the elapsed seconds since start as an exact rational and one draw per
address.  The source draws `random.randint(0,100)` sequentially from one
generator, one draw per already-initialized address per tick, so a run with
draw oracle `ds` models the run in which the generator happened to emit
`ds tick addr` when updating `addr`; an address's first tick consumes no
draw and the oracle value is simply unused there. -/

structure SimState where
  store : Store
  lastValues : ℕ → Option ℤ

/-- Modelled from Python's `random.randint(a, b)`: a uniform draw from the
inclusive range `[a, b]` (both endpoints attainable). -/
def randintRange (a b : ℕ) : Finset ℕ := Finset.Icc a b

/-- Lines 162-178: expand a logical value into (word address, word) pairs,
`enumerate(_pack_value(value, width))` shifted to start at `addr`.  The
source asserts `addr in _ALL_REGISTERS`; the `none` branch is that failed
assertion, unreachable from every call site below. -/
def _expand_register_value (addr : ℕ) (value : ℤ) : List (ℕ × ℕ) :=
  match _ALL_REGISTERS addr with
  | some width => (_pack_value value width).enum.map (fun p => (addr + p.1, p.2))
  | none => []

/-- The new `_last_values[addr]` entry computed by lines 198-207: the bounds
midpoint on the first tick for the address (`int(sum(limits)/2.0)` is float
division truncated toward zero, `Int.tdiv`), otherwise a draw-directed
step of 25 clamped into the limits. -/
def _varying_next (limits : ℤ × ℤ) (prev : Option ℤ) (p : ℕ) : ℤ :=
  match prev with
  | none => Int.tdiv (limits.1 + limits.2) 2
  | some v =>
    if p < 25 then min limits.2 (v + 25)
    else if p < 50 then max limits.1 (v - 25)
    else v

/-- Lines 196-210: update one register.  Addresses missing from
`REGISTER_LIMITS` fall back to the default limits `[0, 1000]`. -/
def _update_varying_register (s : SimState) (addr : ℕ) (p : ℕ) : SimState :=
  let limits := (REGISTER_LIMITS addr).getD (0, 1000)
  let last := _varying_next limits (s.lastValues addr) p
  { store := setValuesDict s.store (_expand_register_value addr last),
    lastValues := fun b => if b = addr then some last else s.lastValues b }

/-- Python `int(...)` on a nonnegative quotient truncates toward zero. -/
def intTrunc (q : ℚ) : ℤ := Int.tdiv q.num (q.den : ℤ)

/-- Lines 180-194, one tick of `_step`: write the hour meter with
`int(elapsed_time / 36)`, then update every key of
`_INITIAL_REGISTER_VALUES` (the whole catalog) with the random walk. -/
def _step (s : SimState) (elapsed : ℚ) (draws : ℕ → ℕ) : SimState :=
  let diris_time : ℤ := intTrunc (elapsed / 36)
  let s1 : SimState :=
    { s with store := setValuesDict s.store (_expand_register_value _HOUR_METER diris_time) }
  catalogKeys.foldl (fun st k => _update_varying_register st k (draws k)) s1

/-- Lines 141-152: the datablock is created over the expansion of every
catalog address's initial logical value; `self._last_values` starts empty. -/
def initialStore : Store :=
  catalogKeys.foldl
    (fun st a => setValuesDict st (_expand_register_value a (_INITIAL_REGISTER_VALUES a)))
    (fun _ => none)

def initState : SimState :=
  { store := initialStore, lastValues := fun _ => none }

/-- Run `n` ticks from the freshly created state; tick `i` sees elapsed time
`es i` and draw oracle `ds i`. -/
def runTicks (n : ℕ) (es : ℕ → ℚ) (ds : ℕ → ℕ → ℕ) : SimState :=
  match n with
  | 0 => initState
  | n + 1 => _step (runTicks n es ds) (es n) (ds n)

/-- The logical value a register currently holds: its backed words, decoded.
The decoding direction is modelled from the spec (section 4.2). -/
def logicalValueAt (s : SimState) (addr : ℕ) : Option ℤ :=
  (_ALL_REGISTERS addr).bind (fun w => (readWords s.store addr w).map unpack)

/-! ## Device slave context (`create`, `A40SlaveContext`, lines 73-130)

`create()` builds an `A40SlaveContext` from three single-element sequential
stub blocks (discrete inputs, coils, input registers, each
`ModbusSequentialDataBlock(0, [1])`) and the simulated holding-register
block.  The context methods of lines 97-130 delegate to the block selected
by the function code with the address passed through unmodified: the
`address = address + 1` adjustment of modbus specification section 4.4
appears only as a comment (lines 105, 117, 128).  The function-code decode
table, the sequential block and the sparse block live in the external
pymodbus library; they are modelled from the spec (sections 4.3, 4.5, 6). -/

inductive Family where
  | di : Family
  | co : Family
  | ir : Family
  | hr : Family

/-- Modelled from the spec: the base slave context's standard decode of a
function code into a store family; codes 1/5/15 address coils, 2 discrete
inputs, 4 input registers, 3/6/16/22/23 holding registers, anything else is
a lookup failure. -/
def decode (fx : ℕ) : Option Family :=
  match fx with
  | 1 => some Family.co
  | 5 => some Family.co
  | 15 => some Family.co
  | 2 => some Family.di
  | 4 => some Family.ir
  | 3 => some Family.hr
  | 6 => some Family.hr
  | 16 => some Family.hr
  | 22 => some Family.hr
  | 23 => some Family.hr
  | _ => none

/-- Modelled from the spec: a sequential data block is a start address plus a
contiguous word list. -/
structure SeqBlock where
  start : ℕ
  values : List ℕ

/-- Modelled from the spec: a sequential block accepts exactly the ranges
lying inside its contiguous span. -/
def seqValidate (blk : SeqBlock) (addr count : ℕ) : Bool :=
  decide (blk.start ≤ addr ∧ addr + count ≤ blk.start + blk.values.length)

/-- Modelled from the spec: sequential reads slice the word list; callers
are expected to validate first. -/
def seqGet (blk : SeqBlock) (addr count : ℕ) : List ℕ :=
  (blk.values.drop (addr - blk.start)).take count

/-- Modelled from the spec: sequential writes splice the word list in place. -/
def seqSet (blk : SeqBlock) (addr : ℕ) (vs : List ℕ) : SeqBlock :=
  { blk with values := blk.values.take (addr - blk.start) ++ vs ++
      blk.values.drop (addr - blk.start + vs.length) }

structure A40SlaveContext where
  di : SeqBlock
  co : SeqBlock
  ir : SeqBlock
  hr : Store

def familyValidate (ctx : A40SlaveContext) (f : Family) (addr count : ℕ) : Bool :=
  match f with
  | Family.di => seqValidate ctx.di addr count
  | Family.co => seqValidate ctx.co addr count
  | Family.ir => seqValidate ctx.ir addr count
  | Family.hr => storeValidate ctx.hr addr count

def familyGet (ctx : A40SlaveContext) (f : Family) (addr count : ℕ) : Option (List ℕ) :=
  match f with
  | Family.di => some (seqGet ctx.di addr count)
  | Family.co => some (seqGet ctx.co addr count)
  | Family.ir => some (seqGet ctx.ir addr count)
  | Family.hr => readWords ctx.hr addr count

def familySet (ctx : A40SlaveContext) (f : Family) (addr : ℕ) (vs : List ℕ) : A40SlaveContext :=
  match f with
  | Family.di => { ctx with di := seqSet ctx.di addr vs }
  | Family.co => { ctx with co := seqSet ctx.co addr vs }
  | Family.ir => { ctx with ir := seqSet ctx.ir addr vs }
  | Family.hr => { ctx with hr := setValuesList ctx.hr addr vs }

/-- Lines 97-107: `validate` decodes the function code and delegates with
the address unmodified (the `+ 1` of line 105 is commented out). -/
def ctxValidate (ctx : A40SlaveContext) (fx addr count : ℕ) : Option Bool :=
  (decode fx).map (fun f => familyValidate ctx f addr count)

/-- Lines 109-119: `getValues`, same shape. -/
def ctxGetValues (ctx : A40SlaveContext) (fx addr count : ℕ) : Option (Option (List ℕ)) :=
  (decode fx).map (fun f => familyGet ctx f addr count)

/-- Lines 121-130: `setValues`, same shape; no length or range check of any
kind precedes the delegated write. -/
def ctxSetValues (ctx : A40SlaveContext) (fx addr : ℕ) (vs : List ℕ) :
    Option A40SlaveContext :=
  (decode fx).map (fun f => familySet ctx f addr vs)

/-- Modelled from the spec: the documented but deliberately disabled device
addressing convention of section 4.4 would add one to every incoming
address before delegating. -/
def ctxValidateShifted (ctx : A40SlaveContext) (fx addr count : ℕ) : Option Bool :=
  ctxValidate ctx fx (addr + 1) count

/-- Lines 73-84: `create()` wires the three stubs and the simulated
holding-register block (whose word store is `initialStore`). -/
def create : A40SlaveContext :=
  { di := ⟨0, [1]⟩, co := ⟨0, [1]⟩, ir := ⟨0, [1]⟩, hr := initialStore }

/-! ## Codec round-trip -/

theorem unpack_pack (w : ℕ) (hw : w = 1 ∨ w = 2 ∨ w = 4) (v : ℤ)
    (hlo : -(2 ^ (16 * w - 1)) ≤ v) (hhi : v < 2 ^ (16 * w - 1)) :
    unpack (_pack_value v w) = v := by
  rcases hw with rfl | rfl | rfl <;>
  · simp only [_pack_value, unpack, List.range_succ, List.range_zero, List.map_append,
      List.map_cons, List.map_nil, List.nil_append, List.cons_append, List.foldl_cons,
      List.foldl_nil, List.length_cons, List.length_nil] at *
    norm_num at *
    split_ifs <;> omega

theorem runTicks_succ (n : ℕ) (es : ℕ → ℚ) (ds : ℕ → ℕ → ℕ) :
    runTicks (n + 1) es ds = _step (runTicks n es ds) (es n) (ds n) := rfl

/-! ## Catalog facts -/

/-- Case characterization of the catalog: a registered address sits in exactly
one of the seven table ranges, with that table's width. -/
theorem _ALL_REGISTERS_char {a w : ℕ} (h : _ALL_REGISTERS a = some w) :
    (50512 ≤ a ∧ a ≤ 50572 ∧ (a - 50512) % 2 = 0 ∧ w = 2) ∨
    (50768 ≤ a ∧ a ≤ 50817 ∧ (a - 50768) % 2 = 0 ∧ w = 2) ∨
    (51024 ≤ a ∧ a ≤ 51086 ∧ (a - 51024) % 2 = 0 ∧ w = 2) ∨
    (51088 ≤ a ∧ a ≤ 51093 ∧ w = 1) ∨
    (51280 ≤ a ∧ a ≤ 51313 ∧ w = 1) ∨
    (51456 ≤ a ∧ a ≤ 51463 ∧ w = 1) ∨
    (51536 ≤ a ∧ a ≤ 51858 ∧ w = 1) := by
  unfold _ALL_REGISTERS at h
  split_ifs at h with h1 h2 h3 h4 h5 h6 h7
  · exact Or.inl ⟨h1.1, h1.2.1, h1.2.2, by injection h with h; omega⟩
  · exact Or.inr (Or.inl ⟨h2.1, h2.2.1, h2.2.2, by injection h with h; omega⟩)
  · exact Or.inr (Or.inr (Or.inl ⟨h3.1, h3.2.1, h3.2.2, by injection h with h; omega⟩))
  · exact Or.inr (Or.inr (Or.inr (Or.inl ⟨h4.1, h4.2, by injection h with h; omega⟩)))
  · exact Or.inr (Or.inr (Or.inr (Or.inr (Or.inl ⟨h5.1, h5.2, by injection h with h; omega⟩))))
  · exact Or.inr (Or.inr (Or.inr (Or.inr (Or.inr (Or.inl
      ⟨h6.1, h6.2, by injection h with h; omega⟩)))))
  · exact Or.inr (Or.inr (Or.inr (Or.inr (Or.inr (Or.inr
      ⟨h7.1, h7.2, by injection h with h; omega⟩)))))

theorem _ALL_REGISTERS_width {a w : ℕ} (h : _ALL_REGISTERS a = some w) : w = 1 ∨ w = 2 := by
  have := _ALL_REGISTERS_char h
  omega

theorem _ALL_REGISTERS_bounds {a w : ℕ} (h : _ALL_REGISTERS a = some w) :
    0xC550 ≤ a ∧ a + w ≤ 0xCA93 := by
  have := _ALL_REGISTERS_char h
  omega

/-- Distinct catalog registers occupy disjoint word-slot ranges. -/
theorem regs_disjoint {a wa c wc : ℕ} (ha : _ALL_REGISTERS a = some wa)
    (hc : _ALL_REGISTERS c = some wc) (hne : c ≠ a) {b : ℕ} (hb1 : a ≤ b) (hb2 : b < a + wa) :
    b < c ∨ c + wc ≤ b := by
  have Pa := _ALL_REGISTERS_char ha
  have Pc := _ALL_REGISTERS_char hc
  omega

set_option maxHeartbeats 1000000 in
theorem mem_catalogKeys {a : ℕ} : a ∈ catalogKeys ↔ (_ALL_REGISTERS a).isSome := by
  constructor
  · intro h
    unfold catalogKeys at h
    simp only [List.mem_append, List.mem_range'] at h
    unfold _ALL_REGISTERS
    rcases h with ((((((⟨i, hi, rfl⟩ | ⟨i, hi, rfl⟩) | ⟨i, hi, rfl⟩) | ⟨i, hi, rfl⟩) |
        ⟨i, hi, rfl⟩) | ⟨i, hi, rfl⟩) | ⟨i, hi, rfl⟩) <;>
      (split_ifs <;> first | rfl | omega)
  · intro h
    obtain ⟨w, hw⟩ := Option.isSome_iff_exists.1 h
    have hchar := _ALL_REGISTERS_char hw
    unfold catalogKeys
    simp only [List.mem_append, List.mem_range']
    rcases hchar with h1 | h1 | h1 | h1 | h1 | h1 | h1
    · exact Or.inl (Or.inl (Or.inl (Or.inl (Or.inl (Or.inl
        ⟨(a - 50512) / 2, by omega, by omega⟩)))))
    · exact Or.inl (Or.inl (Or.inl (Or.inl (Or.inl (Or.inr
        ⟨(a - 50768) / 2, by omega, by omega⟩)))))
    · exact Or.inl (Or.inl (Or.inl (Or.inl (Or.inr ⟨(a - 51024) / 2, by omega, by omega⟩))))
    · exact Or.inl (Or.inl (Or.inl (Or.inr ⟨a - 51088, by omega, by omega⟩)))
    · exact Or.inl (Or.inl (Or.inr ⟨a - 51280, by omega, by omega⟩))
    · exact Or.inl (Or.inr ⟨a - 51456, by omega, by omega⟩)
    · exact Or.inr ⟨a - 51536, by omega, by omega⟩

theorem mem_range'_le {x s n step : ℕ} (h : x ∈ List.range' s n step) :
    s ≤ x ∧ x ≤ s + step * (n - 1) := by
  rw [List.mem_range'] at h
  obtain ⟨i, hi, rfl⟩ := h
  refine ⟨Nat.le_add_right .., ?_⟩
  have := Nat.mul_le_mul_left step (by omega : i ≤ n - 1)
  omega

theorem catalogKeys_nodup : catalogKeys.Nodup := by
  unfold catalogKeys
  refine List.nodup_append.2 ⟨?_, List.nodup_range' 51536 323, ?_⟩
  · refine List.nodup_append.2 ⟨?_, List.nodup_range' 51456 8, ?_⟩
    · refine List.nodup_append.2 ⟨?_, List.nodup_range' 51280 34, ?_⟩
      · refine List.nodup_append.2 ⟨?_, List.nodup_range' 51088 6, ?_⟩
        · refine List.nodup_append.2 ⟨?_, List.nodup_range' 51024 32 2 (by norm_num), ?_⟩
          · refine List.nodup_append.2
              ⟨List.nodup_range' 50512 31 2 (by norm_num),
               List.nodup_range' 50768 25 2 (by norm_num), ?_⟩
            intro x hx hy
            have h1 := mem_range'_le hx; have h2 := mem_range'_le hy; omega
          · intro x hx hy
            simp only [List.mem_append] at hx
            have h2 := mem_range'_le hy
            rcases hx with hx | hx <;> (have h1 := mem_range'_le hx; omega)
        · intro x hx hy
          simp only [List.mem_append] at hx
          have h2 := mem_range'_le hy
          rcases hx with (hx | hx) | hx <;> (have h1 := mem_range'_le hx; omega)
      · intro x hx hy
        simp only [List.mem_append] at hx
        have h2 := mem_range'_le hy
        rcases hx with ((hx | hx) | hx) | hx <;> (have h1 := mem_range'_le hx; omega)
    · intro x hx hy
      simp only [List.mem_append] at hx
      have h2 := mem_range'_le hy
      rcases hx with (((hx | hx) | hx) | hx) | hx <;> (have h1 := mem_range'_le hx; omega)
  · intro x hx hy
    simp only [List.mem_append] at hx
    have h2 := mem_range'_le hy
    rcases hx with ((((hx | hx) | hx) | hx) | hx) | hx <;> (have h1 := mem_range'_le hx; omega)

/-! ## Store lemmas -/

theorem setValuesDict_cons (st : Store) (q : ℕ × ℕ) (qs : List (ℕ × ℕ)) :
    setValuesDict st (q :: qs) = setValuesDict (storeSet st q.1 q.2) qs := rfl

theorem setValuesDict_frame (ps : List (ℕ × ℕ)) (st : Store) (b : ℕ)
    (h : ∀ q ∈ ps, q.1 ≠ b) : setValuesDict st ps b = st b := by
  induction ps generalizing st with
  | nil => rfl
  | cons q qs ih =>
    rw [setValuesDict_cons, ih _ (fun r hr => h r (List.mem_cons_of_mem q hr))]
    have hq : b ≠ q.1 := Ne.symm (h q (List.mem_cons_self q qs))
    simp [storeSet, hq]

theorem setValuesDict_isSome (ps : List (ℕ × ℕ)) (st : Store) (b : ℕ)
    (h : ∀ q ∈ ps, (st q.1).isSome) :
    ((setValuesDict st ps) b).isSome = (st b).isSome := by
  induction ps generalizing st with
  | nil => rfl
  | cons q qs ih =>
    rw [setValuesDict_cons, ih]
    · by_cases hb : b = q.1
      · subst hb
        simp only [storeSet, if_pos rfl, Option.isSome_some]
        exact (h q (List.mem_cons_self q qs)).symm
      · simp [storeSet, hb]
    · intro r hr
      by_cases hrq : r.1 = q.1
      · simp [storeSet, hrq]
      · simp only [storeSet, if_neg hrq]
        exact h r (List.mem_cons_of_mem q hr)

theorem setShift_frame (l : List ℕ) (st : Store) (a n b : ℕ)
    (h : b < a + n ∨ a + n + l.length ≤ b) :
    setValuesDict st ((l.enumFrom n).map (fun p => (a + p.1, p.2))) b = st b := by
  induction l generalizing st n with
  | nil => rfl
  | cons x xs ih =>
    simp only [List.enumFrom_cons, List.map_cons]
    rw [setValuesDict_cons]
    simp only [List.length_cons] at h
    rw [ih (storeSet st (a + n) x) (n + 1) (by omega)]
    have hb : b ≠ a + n := by omega
    simp [storeSet, hb]

theorem setShift_read (l : List ℕ) (st : Store) (a n : ℕ) :
    readWords (setValuesDict st ((l.enumFrom n).map (fun p => (a + p.1, p.2)))) (a + n) l.length
      = some l := by
  induction l generalizing st n with
  | nil => rfl
  | cons x xs ih =>
    simp only [List.enumFrom_cons, List.map_cons, List.length_cons]
    rw [setValuesDict_cons]
    have hfst : setValuesDict (storeSet st (a + n) x)
        ((xs.enumFrom (n + 1)).map (fun p => (a + p.1, p.2))) (a + n) = some x := by
      rw [setValuesDict_frame]
      · simp [storeSet]
      · intro q hq
        simp only [List.mem_map] at hq
        obtain ⟨p, hp, rfl⟩ := hq
        have := List.le_fst_of_mem_enumFrom hp
        omega
    have hrest : readWords (setValuesDict (storeSet st (a + n) x)
        ((xs.enumFrom (n + 1)).map (fun p => (a + p.1, p.2)))) ((a + n) + 1) xs.length
        = some xs := ih (storeSet st (a + n) x) (n + 1)
    rw [readWords, hfst, hrest]

theorem _pack_value_length (v : ℤ) (w : ℕ) : (_pack_value v w).length = w := by
  simp [_pack_value]

theorem expand_read (st : Store) {a w : ℕ} (v : ℤ) (h : _ALL_REGISTERS a = some w) :
    readWords (setValuesDict st (_expand_register_value a v)) a w = some (_pack_value v w) := by
  unfold _expand_register_value
  rw [h]
  have := setShift_read (_pack_value v w) st a 0
  simpa [_pack_value_length, List.enum] using this

theorem expand_frame (st : Store) {a w : ℕ} (v : ℤ) (h : _ALL_REGISTERS a = some w) {b : ℕ}
    (hb : b < a ∨ a + w ≤ b) :
    setValuesDict st (_expand_register_value a v) b = st b := by
  unfold _expand_register_value
  rw [h]
  have := setShift_frame (_pack_value v w) st a 0 b
    (by simp only [_pack_value_length]; omega)
  simpa [List.enum] using this

theorem expand_none (st : Store) {a : ℕ} (v : ℤ) (h : _ALL_REGISTERS a = none) :
    setValuesDict st (_expand_register_value a v) = st := by
  unfold _expand_register_value
  rw [h]
  rfl

theorem expand_keys {a : ℕ} {v : ℤ} {q : ℕ × ℕ} (hq : q ∈ _expand_register_value a v) :
    ∃ w, _ALL_REGISTERS a = some w ∧ a ≤ q.1 ∧ q.1 < a + w := by
  unfold _expand_register_value at hq
  cases h : _ALL_REGISTERS a with
  | none => rw [h] at hq; simp at hq
  | some w =>
    rw [h] at hq
    refine ⟨w, rfl, ?_⟩
    simp only [List.mem_map] at hq
    obtain ⟨p, hp, rfl⟩ := hq
    have h1 := List.fst_lt_of_mem_enum hp
    rw [_pack_value_length] at h1
    omega

theorem readWords_congr {st1 st2 : Store} {a n : ℕ}
    (h : ∀ i, i < n → st1 (a + i) = st2 (a + i)) :
    readWords st1 a n = readWords st2 a n := by
  induction n generalizing a with
  | zero => rfl
  | succ m ih =>
    rw [readWords, readWords]
    rw [show st1 a = st2 a from by simpa using h 0 (by omega)]
    rw [ih (fun i hi => by
      have := h (i + 1) (by omega)
      simpa [Nat.add_assoc, Nat.add_comm 1 i] using this)]

/-! ## Tick fold lemmas -/

theorem update_lastValues_self (s : SimState) (addr p : ℕ) :
    (_update_varying_register s addr p).lastValues addr
      = some (_varying_next ((REGISTER_LIMITS addr).getD (0, 1000)) (s.lastValues addr) p) := by
  simp [_update_varying_register]

theorem update_lastValues_ne (s : SimState) (addr p : ℕ) {b : ℕ} (h : b ≠ addr) :
    (_update_varying_register s addr p).lastValues b = s.lastValues b := by
  simp [_update_varying_register, h]

theorem update_store_frame (s : SimState) (addr p : ℕ) {b : ℕ}
    (h : ∀ w, _ALL_REGISTERS addr = some w → b < addr ∨ addr + w ≤ b) :
    (_update_varying_register s addr p).store b = s.store b := by
  show setValuesDict s.store (_expand_register_value addr _) b = s.store b
  cases hc : _ALL_REGISTERS addr with
  | none => rw [expand_none _ _ hc]
  | some w => exact expand_frame _ _ hc (h w hc)

theorem foldl_update_lastValues_frame (draws : ℕ → ℕ) (L : List ℕ) (s : SimState) {a : ℕ}
    (ha : a ∉ L) :
    (L.foldl (fun st k => _update_varying_register st k (draws k)) s).lastValues a
      = s.lastValues a := by
  induction L generalizing s with
  | nil => rfl
  | cons c cs ih =>
    rw [List.foldl_cons, ih _ (fun h => ha (List.mem_cons_of_mem c h))]
    exact update_lastValues_ne _ _ _ (fun h => ha (h ▸ List.mem_cons_self c cs))

theorem foldl_update_store_frame (draws : ℕ → ℕ) (L : List ℕ) (s : SimState) {b : ℕ}
    (hb : ∀ c ∈ L, ∀ w, _ALL_REGISTERS c = some w → b < c ∨ c + w ≤ b) :
    (L.foldl (fun st k => _update_varying_register st k (draws k)) s).store b = s.store b := by
  induction L generalizing s with
  | nil => rfl
  | cons c cs ih =>
    rw [List.foldl_cons, ih _ (fun d hd => hb d (List.mem_cons_of_mem c hd))]
    exact update_store_frame _ _ _ (hb c (List.mem_cons_self c cs))

/-- Main fold lemma: in a fold of `_update_varying_register` over a
duplicate-free list containing the catalog address `a`, the address's walk
state is stepped exactly once from its incoming value, and its word slots
hold the packed result. -/
theorem foldl_update_main (draws : ℕ → ℕ) (L : List ℕ) (s : SimState) {a w : ℕ}
    (ha : a ∈ L) (hnd : L.Nodup) (hw : _ALL_REGISTERS a = some w) :
    (L.foldl (fun st k => _update_varying_register st k (draws k)) s).lastValues a
        = some (_varying_next ((REGISTER_LIMITS a).getD (0, 1000)) (s.lastValues a) (draws a)) ∧
    readWords (L.foldl (fun st k => _update_varying_register st k (draws k)) s).store a w
        = some (_pack_value
            (_varying_next ((REGISTER_LIMITS a).getD (0, 1000)) (s.lastValues a) (draws a)) w) := by
  induction L generalizing s with
  | nil => cases ha
  | cons c cs ih =>
    rw [List.foldl_cons]
    rcases List.mem_cons.1 ha with rfl | hmem
    · have hnotin : a ∉ cs := (List.nodup_cons.1 hnd).1
      constructor
      · rw [foldl_update_lastValues_frame draws cs _ hnotin]
        exact update_lastValues_self s a (draws a)
      · have hframe : ∀ i, i < w →
            (cs.foldl (fun st k => _update_varying_register st k (draws k))
              (_update_varying_register s a (draws a))).store (a + i)
            = (_update_varying_register s a (draws a)).store (a + i) := by
          intro i hi
          apply foldl_update_store_frame
          intro d hd wd hwd
          have hne : d ≠ a := fun e => hnotin (e ▸ hd)
          exact regs_disjoint hw hwd hne (Nat.le_add_right a i) (by omega)
        rw [readWords_congr hframe]
        show readWords (setValuesDict s.store (_expand_register_value a _)) a w = _
        rw [expand_read s.store _ hw]
    · have hc : c ≠ a := fun e => (List.nodup_cons.1 hnd).1 (e ▸ hmem)
      have := ih (_update_varying_register s c (draws c)) hmem (List.nodup_cons.1 hnd).2
      rwa [update_lastValues_ne s c (draws c) (Ne.symm hc)] at this

/-! ## Initial store characterization -/

theorem foldl_init_frame (L : List ℕ) (st : Store) {b : ℕ}
    (hb : ∀ c ∈ L, ∀ w, _ALL_REGISTERS c = some w → b < c ∨ c + w ≤ b) :
    (L.foldl (fun s c => setValuesDict s (_expand_register_value c (_INITIAL_REGISTER_VALUES c)))
      st) b = st b := by
  induction L generalizing st with
  | nil => rfl
  | cons c cs ih =>
    rw [List.foldl_cons, ih _ (fun d hd => hb d (List.mem_cons_of_mem c hd))]
    cases hc : _ALL_REGISTERS c with
    | none => rw [expand_none _ _ hc]
    | some w => exact expand_frame _ _ hc (hb c (List.mem_cons_self c cs) w hc)

theorem foldl_init_read (L : List ℕ) (st : Store) {a w : ℕ}
    (ha : a ∈ L) (hnd : L.Nodup) (hw : _ALL_REGISTERS a = some w) :
    readWords
      (L.foldl (fun s c => setValuesDict s (_expand_register_value c (_INITIAL_REGISTER_VALUES c)))
        st) a w
      = some (_pack_value (_INITIAL_REGISTER_VALUES a) w) := by
  induction L generalizing st with
  | nil => cases ha
  | cons c cs ih =>
    rw [List.foldl_cons]
    rcases List.mem_cons.1 ha with rfl | hmem
    · have hnotin : a ∉ cs := (List.nodup_cons.1 hnd).1
      have hframe : ∀ i, i < w →
          (cs.foldl (fun s c => setValuesDict s (_expand_register_value c
              (_INITIAL_REGISTER_VALUES c)))
            (setValuesDict st (_expand_register_value a (_INITIAL_REGISTER_VALUES a)))) (a + i)
          = (setValuesDict st (_expand_register_value a (_INITIAL_REGISTER_VALUES a))) (a + i) := by
        intro i hi
        apply foldl_init_frame
        intro d hd wd hwd
        have hne : d ≠ a := fun e => hnotin (e ▸ hd)
        exact regs_disjoint hw hwd hne (Nat.le_add_right a i) (by omega)
      rw [readWords_congr hframe]
      exact expand_read st _ hw
    · exact ih _ hmem (List.nodup_cons.1 hnd).2

theorem initialStore_read {a w : ℕ} (hw : _ALL_REGISTERS a = some w) :
    readWords initialStore a w = some (_pack_value (_INITIAL_REGISTER_VALUES a) w) :=
  foldl_init_read catalogKeys _ (mem_catalogKeys.2 (by rw [hw]; rfl)) catalogKeys_nodup hw

theorem readWords_isSome {st : Store} {a n : ℕ} {l : List ℕ} (h : readWords st a n = some l) :
    ∀ i, i < n → (st (a + i)).isSome := by
  induction n generalizing a l with
  | zero => intro i hi; omega
  | succ m ih =>
    rw [readWords] at h
    intro i hi
    rcases hsa : st a with _ | v
    · rw [hsa] at h; simp at h
    · rcases hrest : readWords st (a + 1) m with _ | rest
      · rw [hsa, hrest] at h; simp at h
      · cases i with
        | zero => simpa using congrArg Option.isSome hsa
        | succ j =>
          have := ih hrest j (by omega)
          rwa [show a + 1 + j = a + (j + 1) from by omega] at this

theorem setValuesDict_isSome_sub {ps : List (ℕ × ℕ)} {st : Store} {b : ℕ}
    (h : ((setValuesDict st ps) b).isSome) :
    (∃ q ∈ ps, q.1 = b) ∨ (st b).isSome := by
  induction ps generalizing st with
  | nil => exact Or.inr h
  | cons q qs ih =>
    rw [setValuesDict_cons] at h
    rcases ih h with hk | hk
    · obtain ⟨r, hr, hrb⟩ := hk
      exact Or.inl ⟨r, List.mem_cons_of_mem q hr, hrb⟩
    · by_cases hb : b = q.1
      · exact Or.inl ⟨q, List.mem_cons_self q qs, hb.symm⟩
      · right
        rwa [show storeSet st q.1 q.2 b = st b from by simp [storeSet, hb]] at hk

theorem foldl_init_isSome_sub {L : List ℕ} {st : Store} {b : ℕ}
    (h : ((L.foldl (fun s c => setValuesDict s (_expand_register_value c
        (_INITIAL_REGISTER_VALUES c))) st) b).isSome) :
    (∃ a w, _ALL_REGISTERS a = some w ∧ a ≤ b ∧ b < a + w) ∨ (st b).isSome := by
  induction L generalizing st with
  | nil => exact Or.inr h
  | cons c cs ih =>
    rw [List.foldl_cons] at h
    rcases ih h with hk | hk
    · exact Or.inl hk
    · rcases setValuesDict_isSome_sub hk with hq | hq
      · obtain ⟨q, hq1, rfl⟩ := hq
        obtain ⟨w, hw, h1, h2⟩ := expand_keys hq1
        exact Or.inl ⟨c, w, hw, h1, h2⟩
      · exact Or.inr hq

/-- A word slot is backed in the freshly initialized store exactly when some
catalog register's expansion covers it. -/
theorem initialStore_isSome {b : ℕ} :
    (initialStore b).isSome ↔ ∃ a w, _ALL_REGISTERS a = some w ∧ a ≤ b ∧ b < a + w := by
  constructor
  · intro h
    rcases foldl_init_isSome_sub h with hk | hk
    · exact hk
    · simp at hk
  · rintro ⟨a, w, hw, h1, h2⟩
    have := readWords_isSome (initialStore_read hw) (b - a) (by omega)
    rwa [show a + (b - a) = b from by omega] at this

/-! ## Limits facts -/

theorem REGISTER_LIMITS_addr {a : ℕ} {p : ℤ × ℤ} (h : REGISTER_LIMITS a = some p) :
    50514 ≤ a ∧ a ≤ 50566 ∧ (a - 50514) % 2 = 0 := by
  unfold REGISTER_LIMITS at h
  split at h <;> simp_all

theorem REGISTER_LIMITS_pairs {a : ℕ} {p : ℤ × ℤ} (h : REGISTER_LIMITS a = some p) :
    p = (0, 50000) ∨ p = (0, 20000) ∨ p = (0, 1000) ∨ p = (-1000, 1000) ∨ p = (3000, 7000) := by
  unfold REGISTER_LIMITS at h
  split at h <;> simp_all

/-- Every address carrying explicit limits is a two-word register of table 1. -/
theorem bounded_width {a : ℕ} {p : ℤ × ℤ} (h : REGISTER_LIMITS a = some p) :
    _ALL_REGISTERS a = some 2 := by
  have h3 := REGISTER_LIMITS_addr h
  have hg : 50512 ≤ a ∧ a ≤ 50572 ∧ (a - 50512) % 2 = 0 := by omega
  unfold _ALL_REGISTERS
  rw [if_pos hg]

/-- The effective limits of any address (configured or the default `[0,1000]`)
are ordered, contain both midpoints, and fit comfortably in 16 signed bits
of headroom on the low side and 32 on the high side. -/
theorem effLimits_good (a : ℕ) :
    -1000 ≤ ((REGISTER_LIMITS a).getD (0, 1000)).1 ∧
    ((REGISTER_LIMITS a).getD (0, 1000)).2 ≤ 50000 ∧
    ((REGISTER_LIMITS a).getD (0, 1000)).1 ≤
      Int.tdiv (((REGISTER_LIMITS a).getD (0, 1000)).1 + ((REGISTER_LIMITS a).getD (0, 1000)).2) 2 ∧
    Int.tdiv (((REGISTER_LIMITS a).getD (0, 1000)).1 + ((REGISTER_LIMITS a).getD (0, 1000)).2) 2 ≤
      ((REGISTER_LIMITS a).getD (0, 1000)).2 ∧
    ((REGISTER_LIMITS a).getD (0, 1000)).1 ≤
      (((REGISTER_LIMITS a).getD (0, 1000)).1 + ((REGISTER_LIMITS a).getD (0, 1000)).2) / 2 ∧
    (((REGISTER_LIMITS a).getD (0, 1000)).1 + ((REGISTER_LIMITS a).getD (0, 1000)).2) / 2 ≤
      ((REGISTER_LIMITS a).getD (0, 1000)).2 := by
  rcases h : REGISTER_LIMITS a with _ | p
  · decide
  · rcases REGISTER_LIMITS_pairs h with rfl | rfl | rfl | rfl | rfl <;> decide

/-! ## Tick characterization and domain invariance -/

/-- One `_step` advances every catalog register's walk state exactly once and
stores the packed new value, independent of the hour-meter write at the top
of the tick (which the walk of address 0xC550 itself overwrites). -/
theorem _step_eq (s : SimState) (e : ℚ) (d : ℕ → ℕ) :
    _step s e d = catalogKeys.foldl (fun st k => _update_varying_register st k (d k))
      { s with store := (setValuesDict s.store
          (_expand_register_value _HOUR_METER (intTrunc (e / 36)))) } := rfl

theorem step_char (s : SimState) (e : ℚ) (d : ℕ → ℕ) {a w : ℕ}
    (hw : _ALL_REGISTERS a = some w) :
    (_step s e d).lastValues a
      = some (_varying_next ((REGISTER_LIMITS a).getD (0, 1000)) (s.lastValues a) (d a)) ∧
    readWords (_step s e d).store a w
      = some (_pack_value (_varying_next ((REGISTER_LIMITS a).getD (0, 1000))
          (s.lastValues a) (d a)) w) := by
  have hmem : a ∈ catalogKeys := mem_catalogKeys.2 (by rw [hw]; rfl)
  rw [_step_eq]
  exact foldl_update_main d catalogKeys _ hmem catalogKeys_nodup hw

/-- Invariant of a run: a catalog register either still carries its seeded
words (walk state untouched), or its walk state is inside the effective
limits and its words are the packed walk state. -/
theorem runTicks_inv (es : ℕ → ℚ) (ds : ℕ → ℕ → ℕ) (n : ℕ) {a w : ℕ}
    (hw : _ALL_REGISTERS a = some w) :
    ((runTicks n es ds).lastValues a = none ∧
      readWords (runTicks n es ds).store a w = some (_pack_value (_INITIAL_REGISTER_VALUES a) w))
    ∨ (∃ x : ℤ,
      (runTicks n es ds).lastValues a = some x ∧
      ((REGISTER_LIMITS a).getD (0, 1000)).1 ≤ x ∧
      x ≤ ((REGISTER_LIMITS a).getD (0, 1000)).2 ∧
      readWords (runTicks n es ds).store a w = some (_pack_value x w)) := by
  induction n with
  | zero =>
    refine Or.inl ⟨rfl, ?_⟩
    show readWords initialStore a w = _
    exact initialStore_read hw
  | succ m ih =>
    right
    have hstep := step_char (runTicks m es ds) (es m) (ds m) hw
    refine ⟨_varying_next ((REGISTER_LIMITS a).getD (0, 1000))
      ((runTicks m es ds).lastValues a) (ds m a), hstep.1, ?_, ?_, hstep.2⟩ <;>
    · have hg := effLimits_good a
      rcases ih with ⟨hnone, _⟩ | ⟨x, hsome, hx1, hx2, _⟩
      · rw [hnone]
        simp only [_varying_next]
        omega
      · rw [hsome]
        simp only [_varying_next]
        split_ifs <;> omega

theorem expand_isSome_inv (st : Store) (addr : ℕ) (v : ℤ) (b : ℕ)
    (hs : ∀ b, (st b).isSome = (initialStore b).isSome) :
    ((setValuesDict st (_expand_register_value addr v)) b).isSome = (initialStore b).isSome := by
  rw [setValuesDict_isSome]
  · exact hs b
  · intro q hq
    obtain ⟨w, hw, h1, h2⟩ := expand_keys hq
    rw [hs q.1]
    exact initialStore_isSome.2 ⟨addr, w, hw, h1, h2⟩

theorem foldl_update_isSome_inv (d : ℕ → ℕ) (L : List ℕ) (s : SimState)
    (hs : ∀ b, (s.store b).isSome = (initialStore b).isSome) :
    ∀ b, ((L.foldl (fun st k => _update_varying_register st k (d k)) s).store b).isSome
      = (initialStore b).isSome := by
  induction L generalizing s with
  | nil => exact hs
  | cons c cs ih =>
    rw [List.foldl_cons]
    exact ih _ (fun b => expand_isSome_inv s.store c _ b hs)

/-- A tick never creates or removes word slots. -/
theorem step_isSome_inv (s : SimState) (e : ℚ) (d : ℕ → ℕ)
    (hs : ∀ b, (s.store b).isSome = (initialStore b).isSome) :
    ∀ b, ((_step s e d).store b).isSome = (initialStore b).isSome := by
  intro b
  rw [_step_eq]
  exact foldl_update_isSome_inv d catalogKeys _
    (fun b => expand_isSome_inv s.store _HOUR_METER _ b hs) b

theorem runTicks_isSome_inv (es : ℕ → ℚ) (ds : ℕ → ℕ → ℕ) (n : ℕ) :
    ∀ b, ((runTicks n es ds).store b).isSome = (initialStore b).isSome := by
  induction n with
  | zero => intro b; rfl
  | succ m ih => exact step_isSome_inv _ _ _ ih

theorem storeValidate_congr {st1 st2 : Store} (h : ∀ b, (st1 b).isSome = (st2 b).isSome)
    (addr count : ℕ) : storeValidate st1 addr count = storeValidate st2 addr count := by
  unfold storeValidate
  have hall : ∀ l : List ℕ,
      (l.all fun i => (st1 (addr + i)).isSome) = (l.all fun i => (st2 (addr + i)).isSome) := by
    intro l
    induction l with
    | nil => rfl
    | cons x xs ih => simp only [List.all_cons, h, ih]
  exact hall _

/-! ## Observation helpers -/

theorem readWords_get {st : Store} {a n : ℕ} {l : List ℕ} (h : readWords st a n = some l) :
    ∀ i, i < n → st (a + i) = l[i]? := by
  induction n generalizing a l with
  | zero => intro i hi; omega
  | succ m ih =>
    rw [readWords] at h
    intro i hi
    rcases hsa : st a with _ | v
    · rw [hsa] at h; simp at h
    · rcases hrest : readWords st (a + 1) m with _ | rest
      · rw [hsa, hrest] at h; simp at h
      · rw [hsa, hrest] at h
        simp only [Option.some.injEq] at h
        subst h
        cases i with
        | zero => simpa using hsa
        | succ j =>
          have := ih hrest j (by omega)
          rw [show a + (j + 1) = a + 1 + j from by omega, this]
          simp

/-- Round-trip instance: any value inside an address's effective limits
decodes from its packed form unchanged, at that address's catalog width. -/
theorem logical_roundtrip {a w : ℕ} (hw : _ALL_REGISTERS a = some w) {x : ℤ}
    (h1 : ((REGISTER_LIMITS a).getD (0, 1000)).1 ≤ x)
    (h2 : x ≤ ((REGISTER_LIMITS a).getD (0, 1000)).2) :
    unpack (_pack_value x w) = x := by
  rcases _ALL_REGISTERS_width hw with rfl | rfl
  · rcases hb : REGISTER_LIMITS a with _ | p
    · rw [hb] at h1 h2
      simp only [Option.getD_none] at h1 h2
      exact unpack_pack 1 (Or.inl rfl) x (by norm_num; omega) (by norm_num; omega)
    · exfalso
      have hc1 := _ALL_REGISTERS_char hw
      have hc2 := _ALL_REGISTERS_char (bounded_width hb)
      clear h1 h2
      omega
  · have hg := effLimits_good a
    exact unpack_pack 2 (Or.inr (Or.inl rfl)) x (by norm_num; omega) (by norm_num; omega)

theorem logicalValueAt_eq {s : SimState} {a w : ℕ} (hw : _ALL_REGISTERS a = some w) {x : ℤ}
    (h1 : ((REGISTER_LIMITS a).getD (0, 1000)).1 ≤ x)
    (h2 : x ≤ ((REGISTER_LIMITS a).getD (0, 1000)).2)
    (hr : readWords s.store a w = some (_pack_value x w)) :
    logicalValueAt s a = some x := by
  unfold logicalValueAt
  rw [hw]
  show Option.map unpack (readWords s.store a w) = some x
  rw [hr]
  show some (unpack (_pack_value x w)) = some x
  rw [logical_roundtrip hw h1 h2]

/-! ## Initial value helpers -/

theorem _INITIAL_REGISTER_VALUES_none {a : ℕ} (h : REGISTER_LIMITS a = none) :
    _INITIAL_REGISTER_VALUES a = 0 := by
  unfold _INITIAL_REGISTER_VALUES
  rw [h]

theorem _INITIAL_REGISTER_VALUES_some {a : ℕ} {lo hi : ℤ} (h : REGISTER_LIMITS a = some (lo, hi)) :
    _INITIAL_REGISTER_VALUES a = (lo + hi) / 2 := by
  unfold _INITIAL_REGISTER_VALUES
  rw [h]

theorem initValue_in_limits (a : ℕ) :
    ((REGISTER_LIMITS a).getD (0, 1000)).1 ≤ _INITIAL_REGISTER_VALUES a ∧
    _INITIAL_REGISTER_VALUES a ≤ ((REGISTER_LIMITS a).getD (0, 1000)).2 := by
  have hg := effLimits_good a
  rcases h : REGISTER_LIMITS a with _ | ⟨lo, hi⟩
  · rw [_INITIAL_REGISTER_VALUES_none h]
    decide
  · rw [h] at hg
    rw [_INITIAL_REGISTER_VALUES_some h]
    simp only [Option.getD_some] at hg ⊢
    omega

theorem logicalValueAt_init {a w : ℕ} (hw : _ALL_REGISTERS a = some w) :
    logicalValueAt initState a = some (_INITIAL_REGISTER_VALUES a) := by
  have hb := initValue_in_limits a
  apply logicalValueAt_eq hw hb.1 hb.2
  show readWords initialStore a w = _
  exact initialStore_read hw

/-- The logical value of any catalog register after the very first tick is
the truncated midpoint of its effective limits (no draw is consumed). -/
theorem logicalValueAt_tick1 {a w : ℕ} (hw : _ALL_REGISTERS a = some w)
    (es : ℕ → ℚ) (ds : ℕ → ℕ → ℕ) :
    logicalValueAt (runTicks 1 es ds) a
      = some (Int.tdiv (((REGISTER_LIMITS a).getD (0, 1000)).1
          + ((REGISTER_LIMITS a).getD (0, 1000)).2) 2) := by
  have hg := effLimits_good a
  have hstep := (step_char initState (es 0) (ds 0) hw).2
  exact logicalValueAt_eq hw (by omega) (by omega) hstep

/-! ## Claims -/

/-- C7: for every width w in {1, 2, 4} and every signed integer v
representable in w*16 bits, packing v into w big-endian 16-bit words and
then unpacking that word sequence yields v again: unpack(pack(v, w)) == v. -/
theorem claim_C7_roundtrip (w : ℕ) (hw : w = 1 ∨ w = 2 ∨ w = 4) (v : ℤ)
    (hlo : -(2 ^ (16 * w - 1)) ≤ v) (hhi : v < 2 ^ (16 * w - 1)) :
    unpack (_pack_value v w) = v :=
  unpack_pack w hw v hlo hhi

theorem claim_C7_roundtrip_witness :
    unpack (_pack_value (-1) 2) = -1 ∧
    unpack (_pack_value (-32768) 1) = -32768 ∧
    unpack (_pack_value 0 1) = 0 ∧
    unpack (_pack_value 9223372036854775807 4) = 9223372036854775807 ∧
    unpack (_pack_value (-9223372036854775808) 4) = -9223372036854775808 :=
  ⟨claim_C7_roundtrip 2 (Or.inr (Or.inl rfl)) (-1) (by decide) (by decide),
   claim_C7_roundtrip 1 (Or.inl rfl) (-32768) (by decide) (by decide),
   claim_C7_roundtrip 1 (Or.inl rfl) 0 (by decide) (by decide),
   claim_C7_roundtrip 4 (Or.inr (Or.inr rfl)) 9223372036854775807 (by decide) (by decide),
   claim_C7_roundtrip 4 (Or.inr (Or.inr rfl)) (-9223372036854775808) (by decide) (by decide)⟩

/-- C10: every simulation tick writes only to word addresses already backed
at initialization, so the set of occupied word slots — and the verdict of
validate(address, count) for every pair — is unchanged by any number of
ticks. -/
theorem claim_C10_validate_stable (n : ℕ) (es : ℕ → ℚ) (ds : ℕ → ℕ → ℕ) :
    (∀ b : ℕ, ((runTicks n es ds).store b).isSome = (initState.store b).isSome) ∧
    (∀ addr count : ℕ,
      storeValidate (runTicks n es ds).store addr count
        = storeValidate initState.store addr count) :=
  ⟨runTicks_isSome_inv es ds n,
   fun addr count => storeValidate_congr (runTicks_isSome_inv es ds n) addr count⟩

/-- C6: immediately after the datastore is created and before any tick,
every bounded register holds floor((min+max)/2), every unbounded catalog
register holds 0, each expanded to words via the codec. -/
theorem claim_C6_initialization (a w : ℕ) (hw : _ALL_REGISTERS a = some w) :
    readWords initState.store a w = some (_pack_value (_INITIAL_REGISTER_VALUES a) w) ∧
    (∀ lo hi : ℤ, REGISTER_LIMITS a = some (lo, hi) →
      logicalValueAt initState a = some ((lo + hi) / 2)) ∧
    (REGISTER_LIMITS a = none → logicalValueAt initState a = some 0) := by
  refine ⟨?_, ?_, ?_⟩
  · show readWords initialStore a w = _
    exact initialStore_read hw
  · intro lo hi hl
    rw [logicalValueAt_init hw, _INITIAL_REGISTER_VALUES_some hl]
  · intro hl
    rw [logicalValueAt_init hw, _INITIAL_REGISTER_VALUES_none hl]

theorem claim_C6_initialization_witness :
    logicalValueAt initState 50520 = some 25000 ∧ logicalValueAt initState 0xC650 = some 0 := by
  constructor
  · have := (claim_C6_initialization 50520 2 (by decide)).2.1 0 50000 (by decide)
    simpa using this
  · exact (claim_C6_initialization 0xC650 2 (by decide)).2.2 (by decide)

/-- C5: for every address with a configured bounds entry [min,max], after any
number of ticks and for every draw sequence, the stored logical value stays
within [min,max] inclusive. -/
theorem claim_C5_bounds_containment (a : ℕ) (lo hi : ℤ)
    (hl : REGISTER_LIMITS a = some (lo, hi)) (n : ℕ) (es : ℕ → ℚ) (ds : ℕ → ℕ → ℕ) (x : ℤ)
    (hx : logicalValueAt (runTicks n es ds) a = some x) :
    lo ≤ x ∧ x ≤ hi := by
  have hw := bounded_width hl
  have hgd : (REGISTER_LIMITS a).getD (0, 1000) = (lo, hi) := by simp [hl]
  have hinv := runTicks_inv es ds n hw
  rcases hinv with ⟨_, hr⟩ | ⟨y, _, hy1, hy2, hr⟩
  · have hb := initValue_in_limits a
    have := logicalValueAt_eq hw hb.1 hb.2 hr
    rw [this] at hx
    injection hx with hx
    rw [hgd] at hb
    rw [_INITIAL_REGISTER_VALUES_some hl] at hb
    subst hx
    rw [_INITIAL_REGISTER_VALUES_some hl]
    exact ⟨hb.1, hb.2⟩
  · have := logicalValueAt_eq hw hy1 hy2 hr
    rw [this] at hx
    injection hx with hx
    subst hx
    rw [hgd] at hy1 hy2
    exact ⟨hy1, hy2⟩

theorem claim_C5_bounds_containment_witness : (0 : ℤ) ≤ 25000 ∧ (25000 : ℤ) ≤ 50000 :=
  claim_C5_bounds_containment 50520 0 50000 (by decide) 0 (fun _ => 0) (fun _ _ => 0) 25000
    (by
      have := logicalValueAt_init (a := 50520) (w := 2) (by decide)
      simpa using this)

/-- C1 (code bug): one tick at 72 elapsed seconds should leave the
hour-meter register at floor(72/36) = 2, but the random-walk loop of
`_step` (lines 189-190) runs over every key of `_INITIAL_REGISTER_VALUES`,
address 0xC550 included, so the walk's first-tick midpoint 500 of the
default range [0,1000] overwrites the hour-meter words written earlier in
the same tick — whatever the draws. -/
theorem claim_C1_hour_meter_clobbered (ds : ℕ → ℕ) :
    logicalValueAt (_step initState 72 ds) _HOUR_METER = some 500 ∧
    intTrunc ((72 : ℚ) / 36) = 2 ∧ ((500 : ℤ) ≠ 2) := by
  have h36 : (72 : ℚ) / 36 = 2 := by norm_num
  refine ⟨?_, by rw [h36]; simp [intTrunc], by decide⟩
  have hw : _ALL_REGISTERS _HOUR_METER = some 2 := by decide
  have hstep := (step_char initState 72 ds hw).2
  exact logicalValueAt_eq hw (by decide) (by decide) hstep

/-- C2 counterexample: address 0xC650 has no bounds entry, starts at 0, yet
one tick moves it to 500. -/
theorem claim_C2_counterexample :
    REGISTER_LIMITS 0xC650 = none ∧
    logicalValueAt initState 0xC650 = some 0 ∧
    logicalValueAt (runTicks 1 (fun _ => 0) (fun _ _ => 0)) 0xC650 = some 500 ∧
    ((500 : ℤ) ≠ 0) := by
  refine ⟨rfl, ?_, ?_, by decide⟩
  · exact logicalValueAt_init (w := 2) (by decide)
  · exact logicalValueAt_tick1 (w := 2) (by decide) (fun _ => 0) (fun _ _ => 0)

/-- C2 (amended): a catalog address without a bounds entry is random-walked
with the default range [0,1000]: its value becomes 500 (the default
midpoint) on the first tick and stays within [0,1000] forever after
(it is 0 only before the first tick). -/
theorem claim_C2_default_walk (a : ℕ) (ha : REGISTER_LIMITS a = none) (w : ℕ)
    (hw : _ALL_REGISTERS a = some w) (es : ℕ → ℚ) (ds : ℕ → ℕ → ℕ) :
    logicalValueAt (runTicks 1 es ds) a = some 500 ∧
    (∀ n x, logicalValueAt (runTicks n es ds) a = some x → 0 ≤ x ∧ x ≤ 1000) := by
  have hgd : (REGISTER_LIMITS a).getD (0, 1000) = ((0 : ℤ), (1000 : ℤ)) := by simp [ha]
  constructor
  · have h1 := logicalValueAt_tick1 hw es ds
    rw [hgd] at h1
    exact h1
  · intro n x hx
    have hinv := runTicks_inv es ds n hw
    rcases hinv with ⟨_, hr⟩ | ⟨y, _, hy1, hy2, hr⟩
    · have hb := initValue_in_limits a
      rw [logicalValueAt_eq hw hb.1 hb.2 hr] at hx
      injection hx with hx
      subst hx
      rw [_INITIAL_REGISTER_VALUES_none ha]
      decide
    · rw [logicalValueAt_eq hw hy1 hy2 hr] at hx
      injection hx with hx
      subst hx
      rw [hgd] at hy1 hy2
      exact ⟨hy1, hy2⟩

theorem claim_C2_default_walk_witness :
    logicalValueAt (runTicks 1 (fun _ => 0) (fun _ _ => 0)) 0xC750 = some 500 :=
  (claim_C2_default_walk 0xC750 (by decide) 2 (by decide) (fun _ => 0) (fun _ _ => 0)).1

/-- C3 counterexample: after exactly one tick with every draw forced to 10,
address 50520 reads 25000, not 25025 — the first tick for an address only
initializes the walk state to the midpoint and consumes no draw. -/
theorem claim_C3_counterexample :
    logicalValueAt (runTicks 1 (fun _ => 0) (fun _ _ => 10)) 50520 = some 25000 ∧
    ¬ logicalValueAt (runTicks 1 (fun _ => 0) (fun _ _ => 10)) 50520 = some 25025 := by
  have h := logicalValueAt_tick1 (a := 50520) (w := 2) (by decide) (fun _ => 0) (fun _ _ => 10)
  constructor
  · exact h
  · intro hc
    rw [h] at hc
    injection hc with hc
    revert hc
    decide

/-- C3 (amended): 50520 starts at 25000; the first tick initializes the walk
state to 25000 without consuming a draw; one further tick with a forced
draw of 10 yields 25025, with 40 yields 24975, with 80 leaves 25000. -/
theorem claim_C3_scenario (es : ℕ → ℚ) (ds : ℕ → ℕ → ℕ) :
    logicalValueAt initState 50520 = some 25000 ∧
    logicalValueAt (runTicks 1 es ds) 50520 = some 25000 ∧
    (ds 1 50520 = 10 → logicalValueAt (runTicks 2 es ds) 50520 = some 25025) ∧
    (ds 1 50520 = 40 → logicalValueAt (runTicks 2 es ds) 50520 = some 24975) ∧
    (ds 1 50520 = 80 → logicalValueAt (runTicks 2 es ds) 50520 = some 25000) := by
  have hw : _ALL_REGISTERS 50520 = some 2 := by decide
  have hL1 : (runTicks 1 es ds).lastValues 50520 = some 25000 := by
    show (runTicks (0 + 1) es ds).lastValues 50520 = some 25000
    rw [runTicks_succ, (step_char (runTicks 0 es ds) (es 0) (ds 0) hw).1]
    rfl
  refine ⟨?_, ?_, ?_, ?_, ?_⟩
  · have := logicalValueAt_init hw
    simpa using this
  · exact logicalValueAt_tick1 hw es ds
  all_goals
    intro hd
    have hstep2 := (step_char (runTicks 1 es ds) (es 1) (ds 1) hw).2
    rw [hL1, hd] at hstep2
    exact logicalValueAt_eq hw (by decide) (by decide) hstep2

theorem claim_C3_scenario_witness :
    logicalValueAt (runTicks 2 (fun _ => 0) (fun _ _ => 10)) 50520 = some 25025 :=
  (claim_C3_scenario (fun _ => 0) (fun _ _ => 10)).2.2.1 rfl

/-- C4 counterexample: with a forced draw of 10 the bounded address 50526
(range [3000,7000], midpoint 5000) does not move to 5025 on its first tick —
the first tick consumes no draw — and the engine's draw range, Python's
`randint(0, 100)`, includes 100, which `[0,100)` excludes. -/
theorem claim_C4_counterexample :
    logicalValueAt (runTicks 1 (fun _ => 0) (fun _ _ => 10)) 50526 = some 5000 ∧
    ((5000 : ℤ) ≠ 5025) ∧
    100 ∈ randintRange 0 100 ∧ ¬ 100 ∈ Finset.Ico (0 : ℕ) 100 := by
  refine ⟨?_, by decide, by decide, by decide⟩
  exact logicalValueAt_tick1 (w := 2) (by decide) (fun _ => 0) (fun _ _ => 10)

/-- C4 (amended): for a bounded address the engine lazily seeds the walk
state with the truncated bounds midpoint on its first tick, consuming no
draw; on every later tick it draws from the inclusive range [0,100]: a draw
< 25 adds the fixed step 25 clamped to max, a draw in [25,50) subtracts 25
clamped to min, and a draw in [50,100] leaves the value unchanged. -/
theorem claim_C4_walk_rule (a : ℕ) (lo hi : ℤ) (hl : REGISTER_LIMITS a = some (lo, hi))
    (es : ℕ → ℚ) (ds : ℕ → ℕ → ℕ) (n : ℕ) :
    ((runTicks n es ds).lastValues a = none →
      (runTicks (n + 1) es ds).lastValues a = some (Int.tdiv (lo + hi) 2) ∧
      readWords (runTicks (n + 1) es ds).store a 2
        = some (_pack_value (Int.tdiv (lo + hi) 2) 2)) ∧
    (∀ x : ℤ, (runTicks n es ds).lastValues a = some x →
      (runTicks (n + 1) es ds).lastValues a
        = some (if ds n a < 25 then min hi (x + 25)
            else if ds n a < 50 then max lo (x - 25) else x) ∧
      readWords (runTicks (n + 1) es ds).store a 2
        = some (_pack_value (if ds n a < 25 then min hi (x + 25)
            else if ds n a < 50 then max lo (x - 25) else x) 2)) := by
  have hw := bounded_width hl
  have hgd : (REGISTER_LIMITS a).getD (0, 1000) = (lo, hi) := by simp [hl]
  constructor
  · intro h0
    have hstep := step_char (runTicks n es ds) (es n) (ds n) hw
    rw [h0, hgd] at hstep
    exact hstep
  · intro x hx
    have hstep := step_char (runTicks n es ds) (es n) (ds n) hw
    rw [hx, hgd] at hstep
    exact hstep

theorem claim_C4_walk_rule_witness :
    (runTicks 1 (fun _ => 0) (fun _ _ => 10)).lastValues 50520 = some (Int.tdiv (0 + 50000) 2) :=
  ((claim_C4_walk_rule 50520 0 50000 (by decide) (fun _ => 0) (fun _ _ => 10) 0).1 rfl).1

/-- C8: validate, read and write delegate to the store selected by the
function code with the address unmodified; the documented +1 offset is not
applied.  The boundary probes witness the unshifted behavior on the created
device: the last catalog slot 0xCA92 validates, the slot 0xC54F just below
the catalog does not, while the disabled +1 convention would accept
0xC54F (by probing 0xC550). -/
theorem claim_C8_passthrough :
    (∀ (ctx : A40SlaveContext) (fx addr count : ℕ),
      ctxValidate ctx fx addr count
        = (decode fx).map (fun f => familyValidate ctx f addr count)) ∧
    (∀ (ctx : A40SlaveContext) (fx addr count : ℕ),
      ctxGetValues ctx fx addr count
        = (decode fx).map (fun f => familyGet ctx f addr count)) ∧
    (∀ (ctx : A40SlaveContext) (fx addr : ℕ) (vs : List ℕ),
      ctxSetValues ctx fx addr vs = (decode fx).map (fun f => familySet ctx f addr vs)) ∧
    ctxValidate create 3 0xCA92 1 = some true ∧
    ctxValidate create 3 0xC54F 1 = some false ∧
    ctxValidateShifted create 3 0xC54F 1 = some true := by
  have hlast : (initialStore 0xCA92).isSome = true :=
    initialStore_isSome.2 ⟨0xCA92, 1, by decide, by omega, by omega⟩
  have hfirst : (initialStore 0xC550).isSome = true :=
    initialStore_isSome.2 ⟨0xC550, 2, by decide, by omega, by omega⟩
  have hbelow : (initialStore 0xC54F).isSome = false := by
    rw [Bool.eq_false_iff]
    intro h
    obtain ⟨a, w, hw, hb1, hb2⟩ := initialStore_isSome.1 h
    have := _ALL_REGISTERS_bounds hw
    omega
  refine ⟨fun _ _ _ _ => rfl, fun _ _ _ _ => rfl, fun _ _ _ _ => rfl, ?_, ?_, ?_⟩
  · show some (storeValidate initialStore 0xCA92 1) = some true
    simp [storeValidate, List.range_succ, hlast]
  · show some (storeValidate initialStore 0xC54F 1) = some false
    simp [storeValidate, List.range_succ, hbelow]
  · show some (storeValidate initialStore 0xC550 1) = some true
    simp [storeValidate, List.range_succ, hfirst]

/-- C9 counterexample: a write of three values at the two-word register
0xC550 is not rejected — it is applied in full, spilling into the slot
0xC552 of the next register, whose content changes from 0 to 3. -/
theorem claim_C9_counterexample :
    ctxSetValues create 3 0xC550 [1, 2, 3]
        = some { create with hr := setValuesList initialStore 0xC550 [1, 2, 3] } ∧
    setValuesList initialStore 0xC550 [1, 2, 3] 0xC552 = some 3 ∧
    initialStore 0xC552 = some 0 ∧
    ¬ (some (3 : ℕ) = some (0 : ℕ)) := by
  refine ⟨rfl, rfl, ?_, by decide⟩
  have h := initialStore_read (a := 0xC552) (w := 2) (by decide)
  have h0 := readWords_get h 0 (by omega)
  have hv : (_pack_value (_INITIAL_REGISTER_VALUES 0xC552) 2)[(0 : ℕ)]? = some 0 := by decide
  rw [hv] at h0
  simpa using h0

/-- C9 (amended): the holding-register write path performs no length
validation at all: a write of k values at address a unconditionally
overwrites word slots a..a+k-1 (creating slots as needed) and leaves every
other slot unchanged, whether or not k matches the addressed registers'
widths. -/
theorem claim_C9_unvalidated_write :
    (∀ (ctx : A40SlaveContext) (addr : ℕ) (vs : List ℕ),
      ctxSetValues ctx 3 addr vs = some { ctx with hr := setValuesList ctx.hr addr vs }) ∧
    (∀ (st : Store) (addr : ℕ) (vs : List ℕ) (b : ℕ),
      setValuesList st addr vs b
        = if addr ≤ b ∧ b < addr + vs.length then vs[b - addr]? else st b) := by
  refine ⟨fun _ _ _ => rfl, ?_⟩
  intro st addr vs b
  split_ifs with h
  · have hread := setShift_read vs st addr 0
    have hget := readWords_get hread (b - addr) (by omega)
    have hb : addr + 0 + (b - addr) = b := by omega
    rw [hb] at hget
    exact hget
  · have hcond : b < addr + 0 ∨ addr + 0 + vs.length ≤ b := by omega
    exact setShift_frame vs st addr 0 b hcond
